import Mathlib

/-!
Verification of the flashcard study-session engine.

The development shallowly embeds the study-session code of the two
program variants:

* `FC4` models `fc4.py` (`prepare_study_cards`, the closures
  `toggle_answer`, `next_card`, `prev_card`, `mark_as_known`,
  `need_more_study` defined inside `show_study_card`, and the
  completion test of `show_study_card` / the stats of `study_complete`).
* `Improved` models `flashcard_app_improved.py` (`study_deck`,
  `start_study_session`, `toggle_answer`, `next_card`,
  `finish_study_session`).

Machine integers are `Nat`; Python sets over hashable values are
`Finset`; Python list indexing that can raise `IndexError` is modelled
with `Option`.
-/

namespace FC4

/-- A card record as stored in a deck: only the fields the engine reads. -/
structure Card where
  question : String
  answer : String
deriving DecidableEq, Repr

/-- One element of `self.study_cards` as built by `prepare_study_cards`:
`{"original_index": i, "card_data": card, "card_id": f"{deck}_{i}"}`. -/
structure StudyEntry where
  original_index : Nat
  card_data : Card
  card_id : String
deriving DecidableEq, Repr

/-- Embeds `prepare_study_cards`: one entry per card, `original_index`
its position, `card_id` the deck name, an underscore and the index. -/
def prepare_study_cards (deck : String) (cards : List Card) : List StudyEntry :=
  cards.enum.map (fun p => ⟨p.1, p.2, deck ++ "_" ++ Nat.repr p.1⟩)

/-- The mutable session fields of the app object that the study loop
touches: `study_cards`, `current_card_index`, `show_answer`,
`known_cards`. -/
structure State where
  study_cards : List StudyEntry
  current_card_index : Nat
  show_answer : Bool
  known_cards : Finset String
deriving DecidableEq

/-- Embeds `start_study_session` (after `prepare_study_cards` has reset
`known_cards` to the empty set): index 0, answer hidden. The queue is a
parameter because random mode shuffles it first. -/
def start_study_session (q : List StudyEntry) : State :=
  { study_cards := q, current_card_index := 0, show_answer := false, known_cards := ∅ }

/-- Embeds the completion test at the top of `show_study_card`:
`current_card_index >= len(study_cards)` routes to `study_complete`. -/
def isComplete (s : State) : Bool := s.study_cards.length ≤ s.current_card_index

/-- Embeds the `toggle_answer` closure: `show_answer = not show_answer`. -/
def toggle_answer (s : State) : State :=
  { s with show_answer := !s.show_answer }

/-- Embeds the `next_card` closure: increment the index, hide the answer. -/
def next_card (s : State) : State :=
  { s with current_card_index := s.current_card_index + 1, show_answer := false }

/-- Embeds the `prev_card` closure: only when the index is positive,
decrement it and hide the answer; otherwise nothing happens. -/
def prev_card (s : State) : State :=
  if 0 < s.current_card_index then
    { s with current_card_index := s.current_card_index - 1, show_answer := false }
  else s

/-- Embeds the `mark_as_known` closure: record the current entry's
`card_id` in `known_cards`, remove the entry at the current index, and
if the index now falls outside a non-empty list reset it to 0; hide the
answer. `none` models the `IndexError` of `study_cards[index]` when the
index is out of range (never reached through the UI). -/
def mark_as_known (s : State) : Option State :=
  match s.study_cards[s.current_card_index]? with
  | none => none
  | some cur =>
    let q := s.study_cards.eraseIdx s.current_card_index
    let idx :=
      if q.length ≤ s.current_card_index then
        (if 0 < q.length then 0 else s.current_card_index)
      else s.current_card_index
    some { study_cards := q, current_card_index := idx, show_answer := false,
           known_cards := insert cur.card_id s.known_cards }

/-- One duplicate built inside the `need_more_study` loop:
`card_id = current.card_id + f"_dup_{len(study_cards)}"` with the same
`original_index` and `card_data`. -/
def dup_entry (cur : StudyEntry) (n : Nat) : StudyEntry :=
  { cur with card_id := cur.card_id ++ "_dup_" ++ Nat.repr n }

/-- Embeds the `need_more_study` closure: append two duplicates of the
current entry (the suffix uses the queue length at each append, so the
two suffixes are consecutive), then fall through to `next_card`. -/
def need_more_study (s : State) : Option State :=
  match s.study_cards[s.current_card_index]? with
  | none => none
  | some cur =>
    let q1 := s.study_cards ++ [dup_entry cur s.study_cards.length]
    let q2 := q1 ++ [dup_entry cur q1.length]
    some (next_card { s with study_cards := q2 })

/-- Embeds the stats line of `study_complete`: the mastery-rate figure
`known/len(original)*100` is inserted only when `cards_known > 0`;
`none` means the summary carries no rate figure. -/
def mastery_rate (originalCount : Nat) (s : State) : Option ℚ :=
  if 0 < s.known_cards.card then
    some ((s.known_cards.card : ℚ) / (originalCount : ℚ) * 100)
  else none

/-- Embeds the empty-deck guard of `study_deck_directly` /
`study_mode_selection`: an empty deck shows an informational message box
and returns to the caller; otherwise the mode-selection screen opens. -/
inductive DirectStudyOutcome where
  | emptyDeckInfo : DirectStudyOutcome
  | modeSelection : String → List Card → DirectStudyOutcome
deriving DecidableEq

/-- Embeds `study_deck_directly`: `if not cards:` show the "Empty Deck"
info box and return, else proceed to study-mode selection for the deck. -/
def study_deck_directly (deck : String) (cards : List Card) : DirectStudyOutcome :=
  if cards = [] then .emptyDeckInfo else .modeSelection deck cards

/-- One user action on the study screen, as enabled by the buttons that
`show_study_card` actually renders: every button exists only while a
card is displayed (index < length), `next_card` only when a later card
exists, and the grading row only while the answer is shown. -/
inductive Step : State → State → Prop
  | toggle (s : State) (h : s.current_card_index < s.study_cards.length) :
      Step s (toggle_answer s)
  | next (s : State) (h : s.current_card_index + 1 < s.study_cards.length) :
      Step s (next_card s)
  | prev (s : State) (h : s.current_card_index < s.study_cards.length) :
      Step s (prev_card s)
  | known (s s' : State) (hshow : s.show_answer = true)
      (h : mark_as_known s = some s') : Step s s'
  | more (s s' : State) (hshow : s.show_answer = true)
      (h : need_more_study s = some s') : Step s s'

/-- States a session can be in after any sequence of user actions. -/
inductive Reachable (init : State) : State → Prop
  | refl : Reachable init init
  | step {s t : State} : Reachable init s → Step s t → Reachable init t

end FC4

namespace Improved

/-- Embeds `start_study_session` of the improved variant: index 0, empty
`known_cards`, answer hidden. The list is the (possibly shuffled) copy
of the deck's cards; the coin-flip shuffle is modelled by quantifying
over permutations of the deck where relevant. -/
structure State where
  study_cards : List FC4.Card
  current_card_index : Nat
  known_cards : Finset Nat
  show_answer : Bool
deriving DecidableEq

/-- Embeds the field initialisation of `start_study_session`. -/
def start_study_session (q : List FC4.Card) : State :=
  { study_cards := q, current_card_index := 0, known_cards := ∅, show_answer := false }

/-- Embeds `toggle_answer` of the improved variant:
`self.show_answer = True` (it never hides). -/
def toggle_answer (s : State) : State := { s with show_answer := true }

/-- Embeds `next_card(knew_it)`: when `knew_it`, add the current index
to `known_cards`; then increment the index and hide the answer. -/
def next_card (knew_it : Bool) (s : State) : State :=
  { s with
    known_cards :=
      if knew_it then insert s.current_card_index s.known_cards else s.known_cards,
    current_card_index := s.current_card_index + 1,
    show_answer := false }

/-- Embeds `finish_study_session`: `studied = self.current_card_index`. -/
def finish_studied (s : State) : Nat := s.current_card_index

/-- Embeds `finish_study_session`: `known = len(self.known_cards)`. -/
def finish_known (s : State) : Nat := s.known_cards.card

/-- Embeds the accuracy formula of `finish_study_session`:
`known / studied * 100 if studied > 0 else 0`. -/
def accuracy (studied known : Nat) : ℚ :=
  if 0 < studied then (known : ℚ) / (studied : ℚ) * 100 else 0

/-- Embeds the empty-deck guard of `study_deck`: no cards shows the
"No Cards" info box and returns; otherwise a session starts on a copy
of the deck's card list. -/
inductive StudyDeckOutcome where
  | noCardsInfo : StudyDeckOutcome
  | sessionEntered : List FC4.Card → StudyDeckOutcome
deriving DecidableEq

/-- Embeds `study_deck`: `if not self.study_cards:` show the info box
and return, else call `start_study_session` on the copied list. -/
def study_deck (cards : List FC4.Card) : StudyDeckOutcome :=
  if cards = [] then .noCardsInfo else .sessionEntered cards

/-- One user action on the improved study screen: the reveal button
exists only while a card is displayed and the answer is hidden; the two
grading buttons exist only while the answer is shown. -/
inductive Step : State → State → Prop
  | toggle (s : State) (h : s.current_card_index < s.study_cards.length) :
      Step s (toggle_answer s)
  | next (s : State) (b : Bool) (h : s.current_card_index < s.study_cards.length)
      (hshow : s.show_answer = true) : Step s (next_card b s)

/-- States a session can be in after any sequence of user actions. -/
inductive Reachable (init : State) : State → Prop
  | refl : Reachable init init
  | step {s t : State} : Reachable init s → Step s t → Reachable init t

end Improved

/-!
Concrete sessions and iteration helpers used by the claim theorems.
`getD` extracts the successor state of a grading action; every such
extraction is backed by an equation `… = some …` proved in the theorems,
so the default branch is never what is actually used.
-/

/-- Repeated application of `mark_as_known` (the user pressing
"I Know This" over and over). -/
def iterate_known : Nat → FC4.State → Option FC4.State
  | 0, s => some s
  | n + 1, s => (FC4.mark_as_known s).bind (iterate_known n)

/-- A single-card deck. -/
def oneCardDeck : List FC4.Card := [⟨"q", "a"⟩]

/-- A three-card deck. -/
def threeCardDeck : List FC4.Card := [⟨"q1", "a1"⟩, ⟨"q2", "a2"⟩, ⟨"q3", "a3"⟩]

/-- A two-card deck. -/
def twoCardDeck : List FC4.Card := [⟨"q1", "a1"⟩, ⟨"q2", "a2"⟩]

/-- The deck name used by all the concrete sessions below. -/
def deckD : String := "d"

/-- Session start on the single-card deck, sequential mode. -/
def c13s0 : FC4.State := FC4.start_study_session (FC4.prepare_study_cards deckD oneCardDeck)

/-- After reveal and "need more study" on the only card. -/
def c13s1 : FC4.State := (FC4.need_more_study (FC4.toggle_answer c13s0)).getD c13s0

/-- After additionally grading the first duplicate known. -/
def c13s2 : FC4.State := (FC4.mark_as_known (FC4.toggle_answer c13s1)).getD c13s0

/-- After additionally grading the second duplicate known. -/
def c13s3 : FC4.State := (FC4.mark_as_known (FC4.toggle_answer c13s2)).getD c13s0

/-- After additionally grading the original entry known. -/
def c13s4 : FC4.State := (FC4.mark_as_known (FC4.toggle_answer c13s3)).getD c13s0

/-- Session start on the three-card deck, sequential mode. -/
def c2t0 : FC4.State := FC4.start_study_session (FC4.prepare_study_cards deckD threeCardDeck)

/-- After reveal and "need more study" on the first card. -/
def c2t1 : FC4.State := (FC4.need_more_study (FC4.toggle_answer c2t0)).getD c2t0

/-- After additionally grading the second card known. -/
def c2t2 : FC4.State := (FC4.mark_as_known (FC4.toggle_answer c2t1)).getD c2t0

/-- After additionally grading the third card known. -/
def c2t3 : FC4.State := (FC4.mark_as_known (FC4.toggle_answer c2t2)).getD c2t0

/-- After additionally advancing past the first duplicate. -/
def c2t4 : FC4.State := FC4.next_card c2t3

/-- After additionally grading the second duplicate known (the index
wraps back to the first card). -/
def c2t5 : FC4.State := (FC4.mark_as_known (FC4.toggle_answer c2t4)).getD c2t0

/-- After a second "need more study" on the first card: the queue now
holds two entries with `card_id` equal to "d_0_dup_3". -/
def c2t6 : FC4.State := (FC4.need_more_study (FC4.toggle_answer c2t5)).getD c2t0

/-- The current entry of the session start on the single-card deck. -/
def oneCardEntry : FC4.StudyEntry := ⟨0, ⟨"q", "a"⟩, "d" ++ "_" ++ Nat.repr 0⟩

/-- The state after `need_more_study` on the single-card session start,
used as the concrete witness for the requeue description. -/
def c2w1 : FC4.State := (FC4.need_more_study c13s0).getD c13s0

/-- A fresh two-card session used for the goBack claim. -/
def c9_state : FC4.State :=
  FC4.start_study_session (FC4.prepare_study_cards deckD twoCardDeck)

/-!
Auxiliary facts about `Nat.repr`, needed because the engine builds
`card_id` strings from decimal renderings of indices and queue lengths.
-/

lemma toDigitsCore_shift (b : Nat) :
    ∀ (f n : Nat) (acc : List Char),
      Nat.toDigitsCore b f n acc = Nat.toDigitsCore b f n [] ++ acc := by
  intro f
  induction f with
  | zero => intro n acc; simp [Nat.toDigitsCore]
  | succ f ih =>
    intro n acc
    simp only [Nat.toDigitsCore]
    by_cases hx : n / b = 0
    · simp [hx]
    · simp only [hx, if_false]
      rw [ih (n / b) (Nat.digitChar (n % b) :: acc), ih (n / b) [Nat.digitChar (n % b)]]
      simp

lemma toDigitsCore_eq_digits :
    ∀ (f n : Nat), 0 < n → n < f →
      Nat.toDigitsCore 10 f n [] = ((Nat.digits 10 n).map Nat.digitChar).reverse := by
  intro f
  induction f with
  | zero => intro n _ h; omega
  | succ f ih =>
    intro n hn hf
    rw [Nat.digits_def' (by norm_num : (1:Nat) < 10) hn]
    simp only [Nat.toDigitsCore]
    by_cases hx : n / 10 = 0
    · simp [hx]
    · have hpos : 0 < n / 10 := Nat.pos_of_ne_zero hx
      have hlt : n / 10 < f :=
        Nat.lt_of_lt_of_le (Nat.div_lt_self hn (by norm_num)) (Nat.lt_succ_iff.mp hf)
      simp only [hx, if_false]
      rw [toDigitsCore_shift, ih (n / 10) hpos hlt]
      simp

lemma digitChar_inj_below : ∀ a < 10, ∀ b < 10, Nat.digitChar a = Nat.digitChar b → a = b := by
  decide

lemma map_digitChar_inj :
    ∀ (l1 l2 : List Nat), (∀ d ∈ l1, d < 10) → (∀ d ∈ l2, d < 10) →
      l1.map Nat.digitChar = l2.map Nat.digitChar → l1 = l2 := by
  intro l1
  induction l1 with
  | nil => intro l2 _ _ h; cases l2 <;> simp_all
  | cons a t ih =>
    intro l2 h1 h2 h
    cases l2 with
    | nil => simp_all
    | cons b t2 =>
      simp only [List.map_cons, List.cons.injEq] at h
      have ha : a < 10 := h1 a (by simp)
      have hb : b < 10 := h2 b (by simp)
      have hab : a = b := digitChar_inj_below a ha b hb h.1
      have ht : t = t2 :=
        ih t2 (fun d hd => h1 d (by simp [hd])) (fun d hd => h2 d (by simp [hd])) h.2
      simp [hab, ht]

lemma natRepr_eq_of_pos {n : Nat} (hn : 0 < n) :
    Nat.repr n = (((Nat.digits 10 n).map Nat.digitChar).reverse).asString := by
  have h : Nat.repr n = (Nat.toDigitsCore 10 (n + 1) n []).asString := rfl
  rw [h, toDigitsCore_eq_digits (n + 1) n hn (Nat.lt_succ_self n)]

theorem natRepr_injective : Function.Injective Nat.repr := by
  intro m n h
  have key : ∀ k : Nat, 0 < k → Nat.repr k ≠ Nat.repr 0 := by
    intro k hk hcon
    have h0 : Nat.repr 0 = (['0'] : List Char).asString := rfl
    rw [natRepr_eq_of_pos hk, h0] at hcon
    have hrev : ((Nat.digits 10 k).map Nat.digitChar).reverse = ['0'] :=
      congrArg String.data hcon
    have hmap : (Nat.digits 10 k).map Nat.digitChar = ['0'] := by
      have := congrArg List.reverse hrev
      simpa using this
    have hd : Nat.digits 10 k = [0] := by
      have h0c : ([0] : List Nat).map Nat.digitChar = ['0'] := rfl
      refine map_digitChar_inj (Nat.digits 10 k) [0] ?_ ?_ (hmap.trans h0c.symm)
      · intro d hd; exact Nat.digits_lt_base (by norm_num) hd
      · intro d hd; simp at hd; omega
    have hk0 : k = 0 := by
      have := Nat.ofDigits_digits 10 k
      rw [hd] at this
      simpa [Nat.ofDigits] using this.symm
    omega
  rcases Nat.eq_zero_or_pos m with hm | hm
  · rcases Nat.eq_zero_or_pos n with hn | hn
    · omega
    · exact absurd (h.symm.trans (hm ▸ rfl)) (key n hn)
  · rcases Nat.eq_zero_or_pos n with hn | hn
    · exact absurd (h.trans (hn ▸ rfl)) (key m hm)
    · rw [natRepr_eq_of_pos hm, natRepr_eq_of_pos hn] at h
      have hrev := congrArg String.data h
      simp only [List.asString] at hrev
      have hmap : (Nat.digits 10 m).map Nat.digitChar = (Nat.digits 10 n).map Nat.digitChar := by
        have := congrArg List.reverse hrev
        simpa using this
      have hdig : Nat.digits 10 m = Nat.digits 10 n := by
        refine map_digitChar_inj _ _ ?_ ?_ hmap
        · intro d hd; exact Nat.digits_lt_base (by norm_num) hd
        · intro d hd; exact Nat.digits_lt_base (by norm_num) hd
      exact Nat.digits.injective 10 hdig

lemma string_append_cancel_left {s t1 t2 : String} (h : s ++ t1 = s ++ t2) : t1 = t2 := by
  cases s with | mk d1 =>
  cases t1 with | mk d2 =>
  cases t2 with | mk d3 =>
  have hd : d1 ++ d2 = d1 ++ d3 := congrArg String.data h
  have := List.append_cancel_left hd
  simp [this]

/-- The two duplicate suffixes built from distinct queue lengths give
distinct `card_id` strings. -/
lemma dup_entry_card_id_ne (cur : FC4.StudyEntry) {m n : Nat} (hmn : m ≠ n) :
    (FC4.dup_entry cur m).card_id ≠ (FC4.dup_entry cur n).card_id := by
  intro hcon
  have h1 : cur.card_id ++ "_dup_" ++ Nat.repr m = cur.card_id ++ "_dup_" ++ Nat.repr n := hcon
  have h2 : Nat.repr m = Nat.repr n := string_append_cancel_left h1
  exact hmn (natRepr_injective h2)

/-!
Shared facts about the prepared queue.
-/

lemma prepare_map_card_data (deck : String) (cards : List FC4.Card) :
    (FC4.prepare_study_cards deck cards).map FC4.StudyEntry.card_data = cards := by
  rw [FC4.prepare_study_cards, List.map_map]
  have h : (FC4.StudyEntry.card_data ∘ fun p : Nat × FC4.Card =>
      (⟨p.1, p.2, deck ++ "_" ++ Nat.repr p.1⟩ : FC4.StudyEntry)) = Prod.snd := by
    funext p; rfl
  rw [h, List.enum_map_snd]

lemma prepare_map_original_index (deck : String) (cards : List FC4.Card) :
    (FC4.prepare_study_cards deck cards).map FC4.StudyEntry.original_index =
      List.range cards.length := by
  rw [FC4.prepare_study_cards, List.map_map]
  have h : (FC4.StudyEntry.original_index ∘ fun p : Nat × FC4.Card =>
      (⟨p.1, p.2, deck ++ "_" ++ Nat.repr p.1⟩ : FC4.StudyEntry)) = Prod.fst := by
    funext p; rfl
  rw [h, List.enum_map_fst]

/-- C4: on a non-empty card list the sequentially prepared queue carries
the cards in input order (entry i holds card i with sourceIndex i), and
any random-mode queue — `prepare_study_cards` followed by a shuffle,
modelled as an arbitrary permutation of the prepared queue — carries the
same multiset of sourceIndex values as the input; the two behaviours are
selected only by the mode chosen in `study_mode_selection`. -/
theorem c4_build_queue_order (deck : String) (cards : List FC4.Card) (_hne : cards ≠ []) :
    (FC4.prepare_study_cards deck cards).map FC4.StudyEntry.card_data = cards ∧
    (FC4.prepare_study_cards deck cards).map FC4.StudyEntry.original_index =
      List.range cards.length ∧
    ∀ q : List FC4.StudyEntry, q.Perm (FC4.prepare_study_cards deck cards) →
      (q.map FC4.StudyEntry.original_index).Perm (List.range cards.length) := by
  refine ⟨prepare_map_card_data deck cards, prepare_map_original_index deck cards, ?_⟩
  intro q hq
  have h := hq.map FC4.StudyEntry.original_index
  rwa [prepare_map_original_index deck cards] at h

/-- C4 witness: the two-card deck, prepared sequentially, and one
concrete shuffled order (the reversal) of the prepared queue. -/
theorem c4_witness :
    (FC4.prepare_study_cards deckD twoCardDeck).map FC4.StudyEntry.card_data
      = [⟨"q1", "a1"⟩, ⟨"q2", "a2"⟩] ∧
    ((FC4.prepare_study_cards deckD twoCardDeck).reverse.map
      FC4.StudyEntry.original_index).Perm (List.range 2) :=
  have h := c4_build_queue_order deckD twoCardDeck (by decide)
  ⟨h.1, h.2.2 _ (by decide)⟩

/-- C7 (counterexample): in `fc4.py` the reveal operation is
`toggle_answer`, which flips `show_answer`; applied twice to the fresh
session it returns to the hidden state instead of staying revealed, so
it is not idempotent. -/
theorem c7_counterexample :
    FC4.toggle_answer (FC4.toggle_answer c13s0) ≠ FC4.toggle_answer c13s0 ∧
    FC4.toggle_answer (FC4.toggle_answer c13s0) = c13s0 := by
  constructor
  · decide
  · decide

/-- C7 (amended): in the improved variant `toggle_answer` sets
`show_answer` to true and is idempotent; in `fc4.py` the operation is an
involution — two calls restore the state — and it reveals the answer
exactly when the answer was hidden. -/
theorem c7_reveal_amended :
    (∀ t : Improved.State,
      Improved.toggle_answer (Improved.toggle_answer t) = Improved.toggle_answer t ∧
      (Improved.toggle_answer t).show_answer = true) ∧
    (∀ s : FC4.State,
      FC4.toggle_answer (FC4.toggle_answer s) = s ∧
      (s.show_answer = false → (FC4.toggle_answer s).show_answer = true)) := by
  constructor
  · intro t; exact ⟨rfl, rfl⟩
  · intro s
    constructor
    · simp [FC4.toggle_answer]
    · intro h; simp [FC4.toggle_answer, h]

/-- C7 witness: the amended statement evaluated on concrete states. -/
theorem c7_witness :
    Improved.toggle_answer (Improved.toggle_answer (Improved.start_study_session oneCardDeck)) =
      Improved.toggle_answer (Improved.start_study_session oneCardDeck) ∧
    FC4.toggle_answer (FC4.toggle_answer c13s0) = c13s0 ∧
    (FC4.toggle_answer c13s0).show_answer = true :=
  ⟨(c7_reveal_amended.1 (Improved.start_study_session oneCardDeck)).1,
   (c7_reveal_amended.2 c13s0).1,
   (c7_reveal_amended.2 c13s0).2 rfl⟩

/-- C9 (counterexample): `prev_card` invoked at index 0 silently leaves
the session state unchanged; no InvalidTransitionError (nor any other
exception) is raised. -/
theorem c9_counterexample : FC4.prev_card c9_state = c9_state := rfl

/-- C9 (amended): at position 0, `goBack` (`prev_card`) is a guarded
no-op that leaves the state unchanged rather than raising; at a positive
position it decrements the index by one, hides the answer, and leaves
the queue and the mastered set untouched. -/
theorem c9_go_back_amended (s : FC4.State) :
    (s.current_card_index = 0 → FC4.prev_card s = s) ∧
    (0 < s.current_card_index →
      (FC4.prev_card s).current_card_index + 1 = s.current_card_index ∧
      (FC4.prev_card s).show_answer = false ∧
      (FC4.prev_card s).study_cards = s.study_cards ∧
      (FC4.prev_card s).known_cards = s.known_cards) := by
  constructor
  · intro h
    simp [FC4.prev_card, h]
  · intro h
    rw [FC4.prev_card, if_pos h]
    exact ⟨by show s.current_card_index - 1 + 1 = s.current_card_index; omega, rfl, rfl, rfl⟩

/-- C9 witness: the amended statement on a fresh two-card session and on
the same session advanced by one card. -/
theorem c9_witness :
    FC4.prev_card c9_state = c9_state ∧
    (FC4.prev_card (FC4.next_card c9_state)).current_card_index + 1 =
      (FC4.next_card c9_state).current_card_index :=
  ⟨(c9_go_back_amended c9_state).1 rfl,
   ((c9_go_back_amended (FC4.next_card c9_state)).2 (by decide)).1⟩

/-- C8 (counterexample): an empty card list makes `study_deck_directly`
(fc4) and `study_deck` (improved) show an informational dialog and
return to the caller; the outcome is an ordinary return value, not a
raised EmptyQueueError — no such exception exists in either variant. -/
theorem c8_counterexample :
    FC4.study_deck_directly deckD [] = FC4.DirectStudyOutcome.emptyDeckInfo ∧
    Improved.study_deck [] = Improved.StudyDeckOutcome.noCardsInfo :=
  ⟨rfl, rfl⟩

/-- C8 (amended): a session is never entered with zero cards — both
entry points answer the empty list with an informational message and
refuse to proceed, and any session or mode-selection they do enter holds
a non-empty card list; but the refusal is a guarded early return, not an
exception. -/
theorem c8_empty_deck_amended (deck : String) (cards : List FC4.Card) :
    (FC4.study_deck_directly deck cards = FC4.DirectStudyOutcome.emptyDeckInfo ↔ cards = []) ∧
    (Improved.study_deck cards = Improved.StudyDeckOutcome.noCardsInfo ↔ cards = []) ∧
    (∀ d cs, FC4.study_deck_directly deck cards = FC4.DirectStudyOutcome.modeSelection d cs →
      cs ≠ []) ∧
    (∀ cs, Improved.study_deck cards = Improved.StudyDeckOutcome.sessionEntered cs →
      cs ≠ []) := by
  by_cases h : cards = []
  · subst h
    refine ⟨by simp [FC4.study_deck_directly], by simp [Improved.study_deck], ?_, ?_⟩
    · intro d cs hcon
      rw [FC4.study_deck_directly, if_pos rfl] at hcon
      cases hcon
    · intro cs hcon
      rw [Improved.study_deck, if_pos rfl] at hcon
      cases hcon
  · refine ⟨?_, ?_, ?_, ?_⟩
    · rw [FC4.study_deck_directly, if_neg h]
      simp [h]
    · rw [Improved.study_deck, if_neg h]
      simp [h]
    · intro d cs hcon
      rw [FC4.study_deck_directly, if_neg h] at hcon
      cases hcon
      exact h
    · intro cs hcon
      rw [Improved.study_deck, if_neg h] at hcon
      cases hcon
      exact h

/-- C8 witness: the amended statement on the empty list and on the
single-card deck. -/
theorem c8_witness :
    FC4.study_deck_directly deckD [] = FC4.DirectStudyOutcome.emptyDeckInfo ∧
    Improved.study_deck oneCardDeck ≠ Improved.StudyDeckOutcome.noCardsInfo :=
  ⟨(c8_empty_deck_amended deckD []).1.mpr rfl,
   fun hcon => (by decide : oneCardDeck ≠ []) ((c8_empty_deck_amended deckD oneCardDeck).2.1.mp hcon)⟩

/-- C1 (counterexample): on the single-card deck, reveal followed by
"need more study" and then grading each of the two duplicates known
leaves the session Active at the original card (queue length 1, index
wrapped to 0) — it does not end in Complete, and the state is Active
even though the removal emptied the queue at the old position. -/
theorem c1_counterexample :
    FC4.Reachable c13s0 c13s3 ∧
    FC4.isComplete c13s3 = false ∧
    c13s3.study_cards.length = 1 ∧
    c13s3.current_card_index = 0 := by
  refine ⟨?_, by decide, by decide, by decide⟩
  have r1 : FC4.Reachable c13s0 (FC4.toggle_answer c13s0) :=
    FC4.Reachable.step FC4.Reachable.refl (FC4.Step.toggle c13s0 (by decide))
  have r2 : FC4.Reachable c13s0 c13s1 :=
    FC4.Reachable.step r1 (FC4.Step.more _ c13s1 (by decide) (by decide))
  have r3 : FC4.Reachable c13s0 (FC4.toggle_answer c13s1) :=
    FC4.Reachable.step r2 (FC4.Step.toggle c13s1 (by decide))
  have r4 : FC4.Reachable c13s0 c13s2 :=
    FC4.Reachable.step r3 (FC4.Step.known _ c13s2 (by decide) (by decide))
  have r5 : FC4.Reachable c13s0 (FC4.toggle_answer c13s2) :=
    FC4.Reachable.step r4 (FC4.Step.toggle c13s2 (by decide))
  exact FC4.Reachable.step r5 (FC4.Step.known _ c13s3 (by decide) (by decide))

/-- Full characterisation of a successful `mark_as_known` call. -/
lemma mark_as_known_spec (s s' : FC4.State) (h : FC4.mark_as_known s = some s') :
    s'.study_cards = s.study_cards.eraseIdx s.current_card_index ∧
    s'.study_cards.length + 1 = s.study_cards.length ∧
    (s.current_card_index + 1 < s.study_cards.length →
      s'.current_card_index = s.current_card_index) ∧
    (s.current_card_index + 1 = s.study_cards.length → s'.study_cards ≠ [] →
      s'.current_card_index = 0) ∧
    (s'.study_cards = [] → s'.current_card_index = s.current_card_index) ∧
    (FC4.isComplete s' = true ↔ s'.study_cards = []) ∧
    s'.show_answer = false := by
  rcases hg : s.study_cards[s.current_card_index]? with _ | cur
  · rw [FC4.mark_as_known, hg] at h
    cases h
  · rw [FC4.mark_as_known, hg] at h
    have hlt : s.current_card_index < s.study_cards.length := by
      rw [List.getElem?_eq_some] at hg
      exact hg.1
    have hlen : (s.study_cards.eraseIdx s.current_card_index).length =
        s.study_cards.length - 1 := List.length_eraseIdx_of_lt hlt
    have hs := Option.some.inj h
    subst hs
    refine ⟨rfl, by simp [hlen]; omega, ?_, ?_, ?_, ?_, rfl⟩
    · intro hmid
      show (if _ then _ else _) = s.current_card_index
      rw [if_neg (by omega)]
    · intro hend hne
      show (if _ then _ else _) = 0
      have hpos : 0 < (s.study_cards.eraseIdx s.current_card_index).length :=
        List.length_pos.mpr hne
      rw [if_pos (by omega), if_pos hpos]
    · intro hq
      have hq2 : s.study_cards.eraseIdx s.current_card_index = [] := hq
      have h0 : (s.study_cards.eraseIdx s.current_card_index).length = 0 := by
        rw [hq2]; rfl
      show (if _ then _ else _) = s.current_card_index
      rw [if_pos (by omega), if_neg (by omega)]
    · simp only [FC4.isComplete]
      constructor
      · intro hc
        have hc2 : (s.study_cards.eraseIdx s.current_card_index).length ≤
            (if (s.study_cards.eraseIdx s.current_card_index).length ≤ s.current_card_index then
              (if 0 < (s.study_cards.eraseIdx s.current_card_index).length then 0
               else s.current_card_index)
             else s.current_card_index) := of_decide_eq_true hc
        rw [← List.length_eq_zero]
        by_cases h1 : (s.study_cards.eraseIdx s.current_card_index).length ≤ s.current_card_index
        · rw [if_pos h1] at hc2
          by_cases h2 : 0 < (s.study_cards.eraseIdx s.current_card_index).length
          · rw [if_pos h2] at hc2; omega
          · omega
        · rw [if_neg h1] at hc2; omega
      · intro hc
        have h0 : (s.study_cards.eraseIdx s.current_card_index).length = 0 := by
          rw [hc]; rfl
        apply decide_eq_true
        rw [if_pos (by omega), if_neg (by omega)]
        omega

/-- C1 (amended): `mark_as_known` removes the current entry (queue
shrinks by one) and does not advance the position while a later entry
shifts into it; but when the removed entry was the last one of a still
non-empty queue the position wraps to 0, and the state is Complete
exactly when the queue has become empty — not merely when the queue has
no entry at the old position. -/
theorem c1_grade_known_amended (s s' : FC4.State) (h : FC4.mark_as_known s = some s') :
    s'.study_cards = s.study_cards.eraseIdx s.current_card_index ∧
    s'.study_cards.length + 1 = s.study_cards.length ∧
    (s.current_card_index + 1 < s.study_cards.length →
      s'.current_card_index = s.current_card_index) ∧
    (s.current_card_index + 1 = s.study_cards.length → s'.study_cards ≠ [] →
      s'.current_card_index = 0) ∧
    (FC4.isComplete s' = true ↔ s'.study_cards = []) ∧
    s'.show_answer = false :=
  have hc := mark_as_known_spec s s' h
  ⟨hc.1, hc.2.1, hc.2.2.1, hc.2.2.2.1, hc.2.2.2.2.2.1, hc.2.2.2.2.2.2⟩

/-- C1 witness: the amended description applied to grading the first
duplicate known in the single-card session. -/
theorem c1_witness :
    c13s2.study_cards.length + 1 = (FC4.toggle_answer c13s1).study_cards.length ∧
    c13s2.current_card_index = (FC4.toggle_answer c13s1).current_card_index ∧
    (FC4.isComplete c13s2 = true ↔ c13s2.study_cards = []) := by
  have h := c1_grade_known_amended (FC4.toggle_answer c13s1) c13s2 (by decide)
  exact ⟨h.2.1, h.2.2.1 (by decide), h.2.2.2.2.1⟩

/-- A `mark_as_known` call on a displayed card always succeeds. -/
lemma mark_as_known_isSome {s : FC4.State}
    (h : s.current_card_index < s.study_cards.length) :
    ∃ t, FC4.mark_as_known s = some t := by
  rw [FC4.mark_as_known, List.getElem?_eq_getElem h]
  exact ⟨_, rfl⟩

/-- Grading the entry at index 0 known always succeeds on a non-empty
queue, keeps the index at 0 and drops the queue's head. -/
lemma mark_as_known_at_zero (s : FC4.State) (h0 : s.current_card_index = 0)
    (hne : s.study_cards ≠ []) :
    ∃ t, FC4.mark_as_known s = some t ∧ t.current_card_index = 0 ∧
      t.study_cards = s.study_cards.tail := by
  have hpos : 0 < s.study_cards.length := List.length_pos.mpr hne
  obtain ⟨t, ht⟩ := @mark_as_known_isSome s (by omega)
  have hc := mark_as_known_spec s t ht
  have htail : t.study_cards = s.study_cards.tail := by
    rw [hc.1, h0, List.eraseIdx_zero]
  refine ⟨t, ht, ?_, htail⟩
  by_cases hone : s.study_cards.length = 1
  · have hq : t.study_cards = [] := by
      rw [← List.length_eq_zero]
      have := hc.2.1
      omega
    rw [hc.2.2.2.2.1 hq, h0]
  · have hmid : s.current_card_index + 1 < s.study_cards.length := by omega
    rw [hc.2.2.1 hmid, h0]

/-- Pressing "I Know This" `j` times from index 0 keeps the index at 0
and removes `j` entries from the front of the queue. -/
lemma iterate_known_complete (j : Nat) :
    ∀ s : FC4.State, s.current_card_index = 0 → j ≤ s.study_cards.length →
      ∃ t, iterate_known j s = some t ∧ t.current_card_index = 0 ∧
        t.study_cards.length = s.study_cards.length - j := by
  induction j with
  | zero => intro s h0 _; exact ⟨s, rfl, h0, by omega⟩
  | succ j ih =>
    intro s h0 hj
    have hne : s.study_cards ≠ [] := by
      intro hcon
      rw [hcon] at hj
      simp at hj
    obtain ⟨t, ht, ht0, httail⟩ := mark_as_known_at_zero s h0 hne
    have hlen : t.study_cards.length = s.study_cards.length - 1 := by
      rw [httail, List.length_tail]
    obtain ⟨u, hu, hu0, hulen⟩ := ih t ht0 (by omega)
    refine ⟨u, ?_, hu0, by omega⟩
    show (FC4.mark_as_known s).bind (iterate_known j) = some u
    rw [ht]
    simpa using hu

/-- C6: starting a session on a queue of K >= 1 entries and pressing
"I Know This" repeatedly — never duplicating, advancing or going back —
keeps the session Active for the first K-1 presses and reaches the
Complete state after exactly K presses. -/
theorem c6_termination (q : List FC4.StudyEntry) (K : Nat) (hK : q.length = K)
    (_h1 : 1 ≤ K) :
    (∀ j, j < K → ∃ t, iterate_known j (FC4.start_study_session q) = some t ∧
      FC4.isComplete t = false) ∧
    (∃ t, iterate_known K (FC4.start_study_session q) = some t ∧
      FC4.isComplete t = true) := by
  have hs0 : (FC4.start_study_session q).current_card_index = 0 := rfl
  have hsl : (FC4.start_study_session q).study_cards.length = K := hK
  constructor
  · intro j hj
    obtain ⟨t, ht, ht0, htl⟩ :=
      iterate_known_complete j (FC4.start_study_session q) hs0 (by omega)
    refine ⟨t, ht, ?_⟩
    simp only [FC4.isComplete]
    rw [decide_eq_false_iff_not]
    omega
  · obtain ⟨t, ht, ht0, htl⟩ :=
      iterate_known_complete K (FC4.start_study_session q) hs0 (by omega)
    refine ⟨t, ht, ?_⟩
    simp only [FC4.isComplete]
    rw [decide_eq_true_iff]
    omega

/-- C6 witness: on a concrete two-entry queue, two presses of
"I Know This" complete the session. -/
theorem c6_witness :
    (iterate_known 2 (FC4.start_study_session
      (FC4.prepare_study_cards deckD twoCardDeck))).map FC4.isComplete =
      some true := by
  obtain ⟨t, ht, htc⟩ :=
    (c6_termination (FC4.prepare_study_cards deckD twoCardDeck) 2
      (by decide) (by omega)).2
  rw [ht]
  simp [htc]

/-- C2 (counterexample): in a three-card session, duplicating the first
card, clearing the other cards and the later duplicate, and duplicating
the first card again produces a queue with two different entries whose
`card_id` is "d_0_dup_3" — the instanceIds in the queue are not pairwise
distinct, because the suffix reuses the current queue length, which can
repeat after removals. -/
theorem c2_counterexample :
    FC4.Reachable c2t0 c2t6 ∧
    c2t6.study_cards.map FC4.StudyEntry.card_id =
      ["d_0", "d_0_dup_3", "d_0_dup_2", "d_0_dup_3"] ∧
    ¬ (c2t6.study_cards.map FC4.StudyEntry.card_id).Nodup := by
  refine ⟨?_, by decide, by decide⟩
  have r1 : FC4.Reachable c2t0 (FC4.toggle_answer c2t0) :=
    FC4.Reachable.step FC4.Reachable.refl (FC4.Step.toggle c2t0 (by decide))
  have r2 : FC4.Reachable c2t0 c2t1 :=
    FC4.Reachable.step r1 (FC4.Step.more _ c2t1 (by decide) (by decide))
  have r3 : FC4.Reachable c2t0 (FC4.toggle_answer c2t1) :=
    FC4.Reachable.step r2 (FC4.Step.toggle c2t1 (by decide))
  have r4 : FC4.Reachable c2t0 c2t2 :=
    FC4.Reachable.step r3 (FC4.Step.known _ c2t2 (by decide) (by decide))
  have r5 : FC4.Reachable c2t0 (FC4.toggle_answer c2t2) :=
    FC4.Reachable.step r4 (FC4.Step.toggle c2t2 (by decide))
  have r6 : FC4.Reachable c2t0 c2t3 :=
    FC4.Reachable.step r5 (FC4.Step.known _ c2t3 (by decide) (by decide))
  have r7 : FC4.Reachable c2t0 c2t4 :=
    FC4.Reachable.step r6 (FC4.Step.next c2t3 (by decide))
  have r8 : FC4.Reachable c2t0 (FC4.toggle_answer c2t4) :=
    FC4.Reachable.step r7 (FC4.Step.toggle c2t4 (by decide))
  have r9 : FC4.Reachable c2t0 c2t5 :=
    FC4.Reachable.step r8 (FC4.Step.known _ c2t5 (by decide) (by decide))
  have r10 : FC4.Reachable c2t0 (FC4.toggle_answer c2t5) :=
    FC4.Reachable.step r9 (FC4.Step.toggle c2t5 (by decide))
  exact FC4.Reachable.step r10 (FC4.Step.more _ c2t6 (by decide) (by decide))

/-- Full characterisation of a successful `need_more_study` call. -/
lemma need_more_study_spec (s s' : FC4.State) (cur : FC4.StudyEntry)
    (hg : s.study_cards[s.current_card_index]? = some cur)
    (h : FC4.need_more_study s = some s') :
    s'.study_cards = s.study_cards ++
      [FC4.dup_entry cur s.study_cards.length,
       FC4.dup_entry cur (s.study_cards.length + 1)] ∧
    s'.study_cards.length = s.study_cards.length + 2 ∧
    (FC4.dup_entry cur s.study_cards.length).original_index = cur.original_index ∧
    (FC4.dup_entry cur s.study_cards.length).card_data = cur.card_data ∧
    (FC4.dup_entry cur (s.study_cards.length + 1)).original_index = cur.original_index ∧
    (FC4.dup_entry cur (s.study_cards.length + 1)).card_data = cur.card_data ∧
    (FC4.dup_entry cur s.study_cards.length).card_id ≠
      (FC4.dup_entry cur (s.study_cards.length + 1)).card_id ∧
    s'.current_card_index = s.current_card_index + 1 ∧
    s'.show_answer = false := by
  rw [FC4.need_more_study, hg] at h
  have hs := Option.some.inj h
  subst hs
  have hq : ((s.study_cards ++ [FC4.dup_entry cur s.study_cards.length]) ++
      [FC4.dup_entry cur (s.study_cards ++ [FC4.dup_entry cur s.study_cards.length]).length])
      = s.study_cards ++
        [FC4.dup_entry cur s.study_cards.length,
         FC4.dup_entry cur (s.study_cards.length + 1)] := by
    rw [List.length_append, List.append_assoc]
    rfl
  refine ⟨hq, ?_, rfl, rfl, rfl, rfl,
    dup_entry_card_id_ne cur (by omega), rfl, rfl⟩
  show ((s.study_cards ++ [FC4.dup_entry cur s.study_cards.length]) ++
      [FC4.dup_entry cur (s.study_cards ++ [FC4.dup_entry cur s.study_cards.length]).length]).length
    = s.study_cards.length + 2
  simp

/-- C2 (amended): `need_more_study` appends exactly two duplicates of
the current entry to the end of the queue, with the same card and
sourceIndex and with the two new instanceIds distinct from each other
(their suffixes use consecutive queue lengths), and advances the
position by one; but the new instanceIds are not guaranteed distinct
from those already in the queue, since a queue length recurs after
removals. -/
theorem c2_requeue_amended (s s' : FC4.State) (cur : FC4.StudyEntry)
    (hg : s.study_cards[s.current_card_index]? = some cur)
    (h : FC4.need_more_study s = some s') :
    s'.study_cards = s.study_cards ++
      [FC4.dup_entry cur s.study_cards.length,
       FC4.dup_entry cur (s.study_cards.length + 1)] ∧
    s'.study_cards.length = s.study_cards.length + 2 ∧
    (FC4.dup_entry cur s.study_cards.length).original_index = cur.original_index ∧
    (FC4.dup_entry cur s.study_cards.length).card_data = cur.card_data ∧
    (FC4.dup_entry cur (s.study_cards.length + 1)).original_index = cur.original_index ∧
    (FC4.dup_entry cur (s.study_cards.length + 1)).card_data = cur.card_data ∧
    (FC4.dup_entry cur s.study_cards.length).card_id ≠
      (FC4.dup_entry cur (s.study_cards.length + 1)).card_id ∧
    s'.current_card_index = s.current_card_index + 1 ∧
    s'.show_answer = false :=
  need_more_study_spec s s' cur hg h

/-- C2 witness: the requeue description on the single-card session. -/
theorem c2_witness :
    c2w1.study_cards.length = c13s0.study_cards.length + 2 ∧
    c2w1.current_card_index = c13s0.current_card_index + 1 ∧
    (FC4.dup_entry oneCardEntry 1).card_id ≠ (FC4.dup_entry oneCardEntry 2).card_id := by
  have h := c2_requeue_amended c13s0 c2w1 oneCardEntry (by decide) (by decide)
  exact ⟨h.2.1, h.2.2.2.2.2.2.2.1, h.2.2.2.2.2.2.1⟩

/-- Every user action preserves the bound on the `original_index` of the
queue entries: removals shrink the queue and the two duplicates copy the
index of an entry already in the queue. -/
lemma fc4_step_indices_below {N : Nat} {s t : FC4.State} (hst : FC4.Step s t)
    (hs : ∀ e ∈ s.study_cards, e.original_index < N) :
    ∀ e ∈ t.study_cards, e.original_index < N := by
  cases hst with
  | toggle h => exact hs
  | next h => exact hs
  | prev h =>
    intro e he
    apply hs
    rw [FC4.prev_card] at he
    by_cases h0 : 0 < s.current_card_index
    · rw [if_pos h0] at he
      exact he
    · rw [if_neg h0] at he
      exact he
  | known t hshow h =>
    intro e he
    have hq := (mark_as_known_spec s t h).1
    rw [hq] at he
    exact hs e (List.mem_of_mem_eraseIdx he)
  | more t hshow h =>
    intro e he
    rcases hg : s.study_cards[s.current_card_index]? with _ | cur
    · rw [FC4.need_more_study, hg] at h
      cases h
    · have hcur : cur ∈ s.study_cards := List.getElem?_mem hg
      have hq := (need_more_study_spec s t cur hg h).1
      rw [hq] at he
      rcases List.mem_append.mp he with h1 | h1
      · exact hs e h1
      · simp only [List.mem_cons, List.not_mem_nil, or_false] at h1
        rcases h1 with h2 | h2 <;>
        · rw [h2]
          show cur.original_index < N
          exact hs cur hcur

/-- C3 (amended): at every point of any session over an original deck of
N cards — sequential or any shuffled order — every entry of the live
queue (duplicates included) carries a sourceIndex that is a valid index
into the original card list; the mastered set, however, stores per-entry
card-id strings rather than integer indices, and its size is not bounded
by N (see the counterexample). -/
theorem c3_source_indices_amended (deck : String) (cards : List FC4.Card)
    (q0 : List FC4.StudyEntry) (hq : q0.Perm (FC4.prepare_study_cards deck cards))
    (s : FC4.State) (h : FC4.Reachable (FC4.start_study_session q0) s) :
    ∀ e ∈ s.study_cards, e.original_index < cards.length := by
  induction h with
  | refl =>
    intro e he
    have hmem : e.original_index ∈ q0.map FC4.StudyEntry.original_index :=
      List.mem_map_of_mem FC4.StudyEntry.original_index he
    have hperm := hq.map FC4.StudyEntry.original_index
    rw [prepare_map_original_index] at hperm
    exact List.mem_range.mp (hperm.mem_iff.mp hmem)
  | step hr hst ih => exact fc4_step_indices_below hst ih

/-- C3 (counterexample): on the single-card deck, duplicating the card
and then grading the original and both duplicates known puts three
distinct card-id strings into `known_cards`, so its size is 3 > N = 1;
the summary then reports three mastered cards (a 300 percent mastery
rate) for a one-card deck. -/
theorem c3_counterexample :
    FC4.Reachable c13s0 c13s4 ∧
    FC4.isComplete c13s4 = true ∧
    c13s4.known_cards.card = 3 ∧
    oneCardDeck.length = 1 ∧
    ¬ (c13s4.known_cards.card ≤ oneCardDeck.length) := by
  refine ⟨?_, by decide, by decide, by decide, by decide⟩
  have r1 : FC4.Reachable c13s0 (FC4.toggle_answer c13s0) :=
    FC4.Reachable.step FC4.Reachable.refl (FC4.Step.toggle c13s0 (by decide))
  have r2 : FC4.Reachable c13s0 c13s1 :=
    FC4.Reachable.step r1 (FC4.Step.more _ c13s1 (by decide) (by decide))
  have r3 : FC4.Reachable c13s0 (FC4.toggle_answer c13s1) :=
    FC4.Reachable.step r2 (FC4.Step.toggle c13s1 (by decide))
  have r4 : FC4.Reachable c13s0 c13s2 :=
    FC4.Reachable.step r3 (FC4.Step.known _ c13s2 (by decide) (by decide))
  have r5 : FC4.Reachable c13s0 (FC4.toggle_answer c13s2) :=
    FC4.Reachable.step r4 (FC4.Step.toggle c13s2 (by decide))
  have r6 : FC4.Reachable c13s0 c13s3 :=
    FC4.Reachable.step r5 (FC4.Step.known _ c13s3 (by decide) (by decide))
  have r7 : FC4.Reachable c13s0 (FC4.toggle_answer c13s3) :=
    FC4.Reachable.step r6 (FC4.Step.toggle c13s3 (by decide))
  exact FC4.Reachable.step r7 (FC4.Step.known _ c13s4 (by decide) (by decide))

/-- C3 witness: the amended bound applied to the original entry, still
in the queue after the duplication step of the single-card session. -/
theorem c3_witness : oneCardEntry.original_index < oneCardDeck.length := by
  have r1 : FC4.Reachable c13s0 (FC4.toggle_answer c13s0) :=
    FC4.Reachable.step FC4.Reachable.refl (FC4.Step.toggle c13s0 (by decide))
  have r2 : FC4.Reachable c13s0 c13s1 :=
    FC4.Reachable.step r1 (FC4.Step.more _ c13s1 (by decide) (by decide))
  exact c3_source_indices_amended deckD oneCardDeck
    (FC4.prepare_study_cards deckD oneCardDeck) (List.Perm.refl _) c13s1 r2
    oneCardEntry (by decide)

/-- A grading step of the improved variant records at most the current
position and then moves past it, so every recorded position stays below
the current one. -/
lemma imp_step_known_below {s t : Improved.State} (hst : Improved.Step s t)
    (hs : ∀ i ∈ s.known_cards, i < s.current_card_index) :
    ∀ i ∈ t.known_cards, i < t.current_card_index := by
  cases hst with
  | toggle h => exact hs
  | next b h hshow =>
    intro i hi
    show i < s.current_card_index + 1
    cases b with
    | false => exact Nat.lt_succ_of_lt (hs i hi)
    | true =>
      rcases Finset.mem_insert.mp hi with h1 | h1
      · omega
      · exact Nat.lt_succ_of_lt (hs i h1)

/-- No user action of the improved variant ever decreases the position. -/
lemma imp_step_index_mono {s t : Improved.State} (hst : Improved.Step s t) :
    s.current_card_index ≤ t.current_card_index := by
  cases hst with
  | toggle h => exact le_refl _
  | next b h hshow => exact Nat.le_succ _

/-- In any reachable state of an improved-variant session the recorded
known positions are all strictly below the current position. -/
lemma imp_reachable_known_below (q : List FC4.Card) (s : Improved.State)
    (h : Improved.Reachable (Improved.start_study_session q) s) :
    ∀ i ∈ s.known_cards, i < s.current_card_index := by
  induction h with
  | refl =>
    intro i hi
    exact absurd hi (Finset.not_mem_empty i)
  | step hr hst ih => exact imp_step_known_below hst ih

/-- C10: within any single improved-variant session the position never
decreases, the set of known cards holds pairwise-distinct positions all
strictly below the current position, so at summary time the number of
known cards is at most the number of cards studied and the reported
accuracy lies between 0 and 100 inclusive. -/
theorem c10_accuracy_bounds (q : List FC4.Card) (s : Improved.State)
    (h : Improved.Reachable (Improved.start_study_session q) s) :
    (∀ t, Improved.Step s t → s.current_card_index ≤ t.current_card_index) ∧
    (∀ i ∈ s.known_cards, i < s.current_card_index) ∧
    Improved.finish_known s ≤ Improved.finish_studied s ∧
    0 ≤ Improved.accuracy (Improved.finish_studied s) (Improved.finish_known s) ∧
    Improved.accuracy (Improved.finish_studied s) (Improved.finish_known s) ≤ 100 := by
  have hknown := imp_reachable_known_below q s h
  have hsub : s.known_cards ⊆ Finset.range s.current_card_index := by
    intro i hi
    exact Finset.mem_range.mpr (hknown i hi)
  have hcard : Improved.finish_known s ≤ Improved.finish_studied s := by
    have hc := Finset.card_le_card hsub
    rw [Finset.card_range] at hc
    exact hc
  refine ⟨fun t hst => imp_step_index_mono hst, hknown, hcard, ?_, ?_⟩
  · rw [Improved.accuracy]
    by_cases hpos : 0 < Improved.finish_studied s
    · rw [if_pos hpos]
      positivity
    · rw [if_neg hpos]
  · rw [Improved.accuracy]
    by_cases hpos : 0 < Improved.finish_studied s
    · rw [if_pos hpos]
      have h1 : (Improved.finish_known s : ℚ) ≤ (Improved.finish_studied s : ℚ) := by
        exact_mod_cast hcard
      have h2 : (0 : ℚ) < (Improved.finish_studied s : ℚ) := by
        exact_mod_cast hpos
      rw [div_mul_eq_mul_div, div_le_iff₀ h2]
      nlinarith
    · rw [if_neg hpos]
      norm_num

/-- C10 witness: the bounds evaluated at the freshly started session. -/
theorem c10_witness :
    Improved.finish_known (Improved.start_study_session oneCardDeck) ≤
      Improved.finish_studied (Improved.start_study_session oneCardDeck) ∧
    Improved.accuracy (Improved.finish_studied (Improved.start_study_session oneCardDeck))
      (Improved.finish_known (Improved.start_study_session oneCardDeck)) ≤ 100 := by
  have h := c10_accuracy_bounds oneCardDeck (Improved.start_study_session oneCardDeck)
    Improved.Reachable.refl
  exact ⟨h.2.2.1, h.2.2.2.2⟩

/-- A successful `mark_as_known` call always records a mastered id, so
the mastered set of its result state is non-empty. -/
lemma mark_as_known_card_pos (s t : FC4.State) (h : FC4.mark_as_known s = some t) :
    0 < t.known_cards.card := by
  rcases hg : s.study_cards[s.current_card_index]? with _ | cur
  · rw [FC4.mark_as_known, hg] at h
    cases h
  · rw [FC4.mark_as_known, hg] at h
    have hs := Option.some.inj h
    subst hs
    show 0 < (insert cur.card_id s.known_cards).card
    exact Finset.card_pos.mpr ⟨cur.card_id, Finset.mem_insert_self _ _⟩

/-- Step preservation of the completion invariant: the position stays
strictly inside the queue until the queue is emptied, and the queue can
only become empty through a `mark_as_known` step, which has just
recorded a mastered id. -/
lemma fc4_step_complete_inv {s t : FC4.State} (hst : FC4.Step s t)
    (_ih : (s.study_cards = [] ∨ s.current_card_index < s.study_cards.length) ∧
      (s.study_cards = [] → 0 < s.known_cards.card)) :
    (t.study_cards = [] ∨ t.current_card_index < t.study_cards.length) ∧
    (t.study_cards = [] → 0 < t.known_cards.card) := by
  cases hst with
  | toggle h =>
    refine ⟨Or.inr h, fun hcon => ?_⟩
    have hq : s.study_cards = [] := hcon
    have h0 : s.study_cards.length = 0 := by rw [hq]; rfl
    exact absurd h (by omega)
  | next h =>
    refine ⟨Or.inr ?_, fun hcon => ?_⟩
    · show s.current_card_index + 1 < s.study_cards.length
      exact h
    · have hq : s.study_cards = [] := hcon
      have h0 : s.study_cards.length = 0 := by rw [hq]; rfl
      exact absurd h (by omega)
  | prev h =>
    refine ⟨Or.inr ?_, fun hcon => ?_⟩
    · rw [FC4.prev_card]
      by_cases h0 : 0 < s.current_card_index
      · rw [if_pos h0]
        show s.current_card_index - 1 < s.study_cards.length
        omega
      · rw [if_neg h0]
        exact h
    · have hq : s.study_cards = [] := by
        rw [FC4.prev_card] at hcon
        by_cases h0 : 0 < s.current_card_index
        · rw [if_pos h0] at hcon
          exact hcon
        · rw [if_neg h0] at hcon
          exact hcon
      have h0 : s.study_cards.length = 0 := by rw [hq]; rfl
      exact absurd h (by omega)
  | known t hshow h =>
    have spec := mark_as_known_spec s t h
    refine ⟨?_, fun _ => mark_as_known_card_pos s t h⟩
    by_cases hq : t.study_cards = []
    · exact Or.inl hq
    · right
      have hcf : FC4.isComplete t = false := by
        rcases Bool.eq_false_or_eq_true (FC4.isComplete t) with hb | hb
        · exact absurd (spec.2.2.2.2.2.1.mp hb) hq
        · exact hb
      simp only [FC4.isComplete] at hcf
      rw [decide_eq_false_iff_not] at hcf
      omega
  | more t hshow h =>
    rcases hg : s.study_cards[s.current_card_index]? with _ | cur
    · rw [FC4.need_more_study, hg] at h
      cases h
    · have spec := need_more_study_spec s t cur hg h
      have hlt : s.current_card_index < s.study_cards.length := by
        rw [List.getElem?_eq_some] at hg
        exact hg.1
      refine ⟨Or.inr ?_, fun hcon => ?_⟩
      · rw [spec.2.2.2.2.2.2.2.1, spec.2.1]
        omega
      · rw [spec.1] at hcon
        exact absurd hcon (by simp)

/-- In every reachable state of an fc4 session started on a non-empty
queue, either the queue is still non-empty with the position strictly
inside it, or the queue is empty and at least one mastered id has been
recorded; in particular a Complete state always has a non-empty
mastered set. -/
lemma fc4_reachable_complete_inv (q0 : List FC4.StudyEntry) (hq0 : q0 ≠ [])
    (s : FC4.State) (h : FC4.Reachable (FC4.start_study_session q0) s) :
    (s.study_cards = [] ∨ s.current_card_index < s.study_cards.length) ∧
    (s.study_cards = [] → 0 < s.known_cards.card) := by
  induction h with
  | refl =>
    refine ⟨Or.inr ?_, fun hcon => absurd hcon hq0⟩
    show 0 < q0.length
    exact List.length_pos.mpr hq0
  | step hr hst ih => exact fc4_step_complete_inv hst ih

/-- C5: the improved variant computes accuracy = known/studied*100 when
studied > 0 and 0 when studied = 0, the figure being produced in every
summary including known = 0; and in fc4, a summary (a Complete state of
a session started on a non-empty queue) is reached only by emptying the
queue through grading known, so it always carries at least one mastered
card and the mastery-rate figure — mastered over the original deck
size, the cardsStudied reading the spec leaves open — is produced in
every summary as well. -/
theorem c5_accuracy_produced (studied known N : Nat)
    (q0 : List FC4.StudyEntry) (hq0 : q0 ≠ []) (s : FC4.State)
    (h : FC4.Reachable (FC4.start_study_session q0) s)
    (hc : FC4.isComplete s = true) :
    (0 < studied → Improved.accuracy studied known = (known : ℚ) / (studied : ℚ) * 100) ∧
    (studied = 0 → Improved.accuracy studied known = 0) ∧
    Improved.accuracy studied 0 = 0 ∧
    0 < s.known_cards.card ∧
    FC4.mastery_rate N s = some ((s.known_cards.card : ℚ) / (N : ℚ) * 100) := by
  have hinv := fc4_reachable_complete_inv q0 hq0 s h
  have hq : s.study_cards = [] := by
    rcases hinv.1 with he | hlt
    · exact he
    · exfalso
      simp only [FC4.isComplete] at hc
      rw [decide_eq_true_iff] at hc
      omega
  have hpos : 0 < s.known_cards.card := hinv.2 hq
  refine ⟨?_, ?_, ?_, hpos, ?_⟩
  · intro hp
    rw [Improved.accuracy, if_pos hp]
  · intro hp
    subst hp
    rw [Improved.accuracy, if_neg (by omega)]
  · rw [Improved.accuracy]
    by_cases hp : 0 < studied
    · rw [if_pos hp]
      norm_num
    · rw [if_neg hp]
  · rw [FC4.mastery_rate, if_pos hpos]

/-- C5 witness: the accuracy facts at concrete values, and the summary
figure of the completed single-card session in which the original entry
and both duplicates were graded known. -/
theorem c5_witness :
    Improved.accuracy 4 1 = (1 : ℚ) / (4 : ℚ) * 100 ∧
    Improved.accuracy 4 0 = 0 ∧
    0 < c13s4.known_cards.card ∧
    FC4.mastery_rate oneCardDeck.length c13s4 =
      some ((c13s4.known_cards.card : ℚ) / (oneCardDeck.length : ℚ) * 100) := by
  have r1 : FC4.Reachable c13s0 (FC4.toggle_answer c13s0) :=
    FC4.Reachable.step FC4.Reachable.refl (FC4.Step.toggle c13s0 (by decide))
  have r2 : FC4.Reachable c13s0 c13s1 :=
    FC4.Reachable.step r1 (FC4.Step.more _ c13s1 (by decide) (by decide))
  have r3 : FC4.Reachable c13s0 (FC4.toggle_answer c13s1) :=
    FC4.Reachable.step r2 (FC4.Step.toggle c13s1 (by decide))
  have r4 : FC4.Reachable c13s0 c13s2 :=
    FC4.Reachable.step r3 (FC4.Step.known _ c13s2 (by decide) (by decide))
  have r5 : FC4.Reachable c13s0 (FC4.toggle_answer c13s2) :=
    FC4.Reachable.step r4 (FC4.Step.toggle c13s2 (by decide))
  have r6 : FC4.Reachable c13s0 c13s3 :=
    FC4.Reachable.step r5 (FC4.Step.known _ c13s3 (by decide) (by decide))
  have r7 : FC4.Reachable c13s0 (FC4.toggle_answer c13s3) :=
    FC4.Reachable.step r6 (FC4.Step.toggle c13s3 (by decide))
  have r8 : FC4.Reachable c13s0 c13s4 :=
    FC4.Reachable.step r7 (FC4.Step.known _ c13s4 (by decide) (by decide))
  have h := c5_accuracy_produced 4 1 oneCardDeck.length
    (FC4.prepare_study_cards deckD oneCardDeck) (by decide) c13s4 r8 (by decide)
  exact ⟨h.1 (by omega), h.2.2.1, h.2.2.2.1, h.2.2.2.2⟩
